import Mathlib

/-!
Verification of the LL4AL-style active-learning loop (ranking loss,
uncertainty scoring, top-B and class-floor selection, cycle invariants).

The definitions below are a shallow embedding of the Python source:
tensors of per-sample values become `List ℚ`, the assertion failure and
the unbound-variable failure of `loss_pred_loss` become explicit error
values, and the index bookkeeping of the main loop becomes explicit
`Finset` state passing.
-/

/-- Failure modes of `loss_pred_loss`: the even-batch assertion
(`InvalidInputError` in the spec's taxonomy), a raised
`NotImplementedError`, and the `NameError` raised when the function
reaches `return loss` with `loss` unbound. -/
inductive LossErr where
  | invalidInput
  | notImplemented
  | nameErrorLoss
deriving DecidableEq

/-- Result of `loss_pred_loss`: a scalar for the mean reduction, a
vector for the elementwise reduction. -/
inductive LossResult where
  | scalar (q : ℚ)
  | vec (v : List ℚ)
deriving DecidableEq

/-- `torch.sign` on a rational. -/
def tsign (q : ℚ) : ℚ := if 0 < q then 1 else if q < 0 then -1 else 0

/-- `torch.clamp(·, min := lo)` on a rational. -/
def tclampMin (lo q : ℚ) : ℚ := if lo ≤ q then q else lo

/-- `(v - v.flip(0))[:len(v)//2]`: elementwise difference with the
reversed vector, keeping the first half. -/
def flipHalfDiff (v : List ℚ) : List ℚ :=
  ((v.zip v.reverse).map fun p => p.1 - p.2).take (v.length / 2)

/-- `one = 2 * torch.sign(torch.clamp(target, min=0)) - 1` applied to
the already-halved target differences. -/
def signMultiplier (tgt : List ℚ) : List ℚ :=
  tgt.map fun t => 2 * tsign (tclampMin 0 t) - 1

/-- The per-pair hinge terms `clamp(margin - one * input, min=0)` of
`loss_pred_loss`, built from the halved differences of both vectors. -/
def pairLosses (input target : List ℚ) (margin : ℚ) : List ℚ :=
  ((signMultiplier (flipHalfDiff target)).zip (flipHalfDiff input)).map
    fun p => tclampMin 0 (margin - p.1 * p.2)

/-- Shallow embedding of `loss_pred_loss` from `main.py`. The odd-batch
assertion fires first; the `mean` branch sums the hinge terms and
divides by the length of the re-assigned (halved) `input`; the `none`
branch returns the hinge terms; any other reduction leaves `loss`
unbound so the function fails with a `NameError`, the constructed
`NotImplementedError` being dropped without being raised. -/
def loss_pred_loss (input target : List ℚ) (margin : ℚ) (reduction : String) :
    Except LossErr LossResult :=
  if input.length % 2 ≠ 0 then .error .invalidInput
  else if reduction = "mean" then
    .ok (.scalar ((pairLosses input target margin).sum /
      ((flipHalfDiff input).length : ℚ)))
  else if reduction = "none" then
    .ok (.vec (pairLosses input target margin))
  else .error .nameErrorLoss

theorem flipHalfDiff_length (v : List ℚ) :
    (flipHalfDiff v).length = v.length / 2 := by
  simp [flipHalfDiff]
  omega

theorem pairLosses_length (input target : List ℚ) (margin : ℚ)
    (hlen : target.length = input.length) :
    (pairLosses input target margin).length = input.length / 2 := by
  simp [pairLosses, signMultiplier, flipHalfDiff_length, hlen]

theorem tclampMin_eq_max (lo q : ℚ) : tclampMin lo q = max q lo := by
  unfold tclampMin
  rcases le_total lo q with h | h
  · simp [h, max_eq_left h]
  · rcases eq_or_lt_of_le h with rfl | hlt
    · simp
    · simp [not_le.mpr hlt, max_eq_right h]

theorem signMultiplier_eq (t : ℚ) :
    2 * tsign (tclampMin 0 t) - 1 = if 0 < t then 1 else -1 := by
  unfold tsign tclampMin
  by_cases h : 0 < t
  · simp [h, le_of_lt h]
    norm_num
  · push_neg at h
    rcases eq_or_lt_of_le h with rfl | hlt
    · norm_num
    · simp [not_lt.mpr h, not_le.mpr hlt]

theorem flipHalfDiff_getElem (v : List ℚ) (i : ℕ)
    (hi : i < (flipHalfDiff v).length) :
    (flipHalfDiff v).get ⟨i, hi⟩ = v.getD i 0 - v.getD (v.length - 1 - i) 0 := by
  have hlen : i < v.length / 2 := by rwa [flipHalfDiff_length] at hi
  have h1 : i < v.length := lt_of_lt_of_le hlen (Nat.div_le_self _ _)
  have h2 : v.length - 1 - i < v.length := by omega
  simp [flipHalfDiff, List.getElem_zip, List.getD_eq_getElem?_getD,
    List.getElem?_eq_getElem, h1, h2]

/-- The elementwise ranking loss exactly as claim C1 words it: pair `i`
with `N-1-i`, sign indicator `+1` when the target difference is `≥ 0`
and `-1` otherwise, per-pair loss `max(0, margin - s * Δpredicted)`. -/
def claimPairLosses (input target : List ℚ) (margin : ℚ) : List ℚ :=
  (List.range (input.length / 2)).map fun i =>
    tclampMin 0 (margin -
      (if 0 ≤ target.getD i 0 - target.getD (target.length - 1 - i) 0
        then (1 : ℚ) else -1) *
      (input.getD i 0 - input.getD (input.length - 1 - i) 0))

/-- The elementwise ranking loss the code computes: as `claimPairLosses`
but the sign indicator is `+1` only when the target difference is
strictly positive, since `2*sign(clamp(d, min=0))-1 = -1` at `d = 0`. -/
def amendedPairLosses (input target : List ℚ) (margin : ℚ) : List ℚ :=
  (List.range (input.length / 2)).map fun i =>
    tclampMin 0 (margin -
      (if 0 < target.getD i 0 - target.getD (target.length - 1 - i) 0
        then (1 : ℚ) else -1) *
      (input.getD i 0 - input.getD (input.length - 1 - i) 0))

theorem pairLosses_eq_amended (input target : List ℚ) (margin : ℚ)
    (hlen : target.length = input.length) :
    pairLosses input target margin = amendedPairLosses input target margin := by
  apply List.ext_getElem
  · rw [pairLosses_length input target margin hlen]
    simp [amendedPairLosses]
  · intro i h1 h2
    have hi : i < input.length / 2 := by
      rw [pairLosses_length input target margin hlen] at h1
      exact h1
    have hit : i < (flipHalfDiff target).length := by
      rw [flipHalfDiff_length, hlen]; exact hi
    have hii : i < (flipHalfDiff input).length := by
      rw [flipHalfDiff_length]; exact hi
    simp only [pairLosses, amendedPairLosses, List.getElem_map,
      List.getElem_zip, List.getElem_range, signMultiplier]
    rw [← List.get_eq_getElem (flipHalfDiff target) ⟨i, hit⟩,
      ← List.get_eq_getElem (flipHalfDiff input) ⟨i, hii⟩,
      flipHalfDiff_getElem target i hit, flipHalfDiff_getElem input i hii,
      signMultiplier_eq, hlen]

/-- C1 counterexample: at `predicted = [1, 0]`, `target = [5, 5]`,
`margin = 1`, the target difference of the single pair is `0`; the code
yields per-pair loss `2` (sign `-1`) while the claim's `≥ 0` rule
predicts `0` (sign `+1`), so the claim as stated is false. -/
theorem loss_pred_loss_claim_sign_counterexample :
    loss_pred_loss [1, 0] [5, 5] 1 "none" = .ok (.vec [2]) ∧
    claimPairLosses [1, 0] [5, 5] 1 = [0] ∧
    LossResult.vec [2] ≠ LossResult.vec [0] := by
  refine ⟨?_, ?_, ?_⟩
  · norm_num [loss_pred_loss, pairLosses, signMultiplier,
      flipHalfDiff, tsign, tclampMin]
    intro h
    exact absurd h (by decide)
  · norm_num [claimPairLosses, tclampMin, List.range_succ]
  · norm_num

/-- C1 (amended): for every even-length pair of equal-length vectors,
the elementwise ranking loss pairs sample `i` with sample `N-1-i` and
the per-pair loss is `max(0, margin - s * Δpredicted)` with
`Δpredicted = predicted[i] - predicted[N-1-i]`, where the sign
indicator `s` is `+1` exactly when `Δtarget > 0` (strictly) and `-1`
otherwise — not `+1` at `Δtarget = 0` as the claim stated. -/
theorem loss_pred_loss_pairing_amended (input target : List ℚ) (margin : ℚ)
    (heven : input.length % 2 = 0) (hlen : target.length = input.length) :
    loss_pred_loss input target margin "none" =
      .ok (.vec (amendedPairLosses input target margin)) := by
  unfold loss_pred_loss
  rw [pairLosses_eq_amended input target margin hlen]
  simp [heven]

theorem loss_pred_loss_pairing_amended_witness :
    (([3, 1] : List ℚ).length % 2 = 0 ∧
      ([2, 4] : List ℚ).length = ([3, 1] : List ℚ).length) ∧
    loss_pred_loss [3, 1] [2, 4] 1 "none" =
      .ok (.vec (amendedPairLosses [3, 1] [2, 4] 1)) :=
  ⟨⟨by norm_num, by norm_num⟩,
    loss_pred_loss_pairing_amended [3, 1] [2, 4] 1 (by norm_num) (by norm_num)⟩

/-- C6: the mean reduction returns the sum of the per-pair hinge losses
divided by the number of pairs actually summed, `N/2`, because the
division is by `input.size(0)` taken after `input` has been re-assigned
to its halved difference vector. -/
theorem loss_pred_loss_mean_divides_by_pair_count (input target : List ℚ)
    (margin : ℚ) (heven : input.length % 2 = 0) (hpos : 0 < input.length) :
    loss_pred_loss input target margin "mean" =
      .ok (.scalar ((pairLosses input target margin).sum /
        ((input.length / 2 : ℕ) : ℚ))) := by
  unfold loss_pred_loss
  rw [flipHalfDiff_length]
  simp [heven]

theorem loss_pred_loss_mean_divides_by_pair_count_witness :
    (([0, 2] : List ℚ).length % 2 = 0 ∧ 0 < ([0, 2] : List ℚ).length) ∧
    loss_pred_loss [0, 2] [1, 0] 1 "mean" =
      .ok (.scalar ((pairLosses [0, 2] [1, 0] 1).sum /
        ((([0, 2] : List ℚ).length / 2 : ℕ) : ℚ))) :=
  ⟨⟨by norm_num, by norm_num⟩,
    loss_pred_loss_mean_divides_by_pair_count [0, 2] [1, 0] 1
      (by norm_num) (by norm_num)⟩

/-- C7: for every even-length input vector of length `N` (with a target
vector of the same length), the elementwise reduction returns a vector
of length `N/2` whose entries are all nonnegative. -/
theorem loss_pred_loss_elementwise_len_nonneg (input target : List ℚ)
    (margin : ℚ) (heven : input.length % 2 = 0)
    (hlen : target.length = input.length) :
    ∃ v, loss_pred_loss input target margin "none" = .ok (.vec v) ∧
      v.length = input.length / 2 ∧ ∀ x ∈ v, 0 ≤ x := by
  refine ⟨pairLosses input target margin, ?_,
    pairLosses_length input target margin hlen, ?_⟩
  · unfold loss_pred_loss
    simp [heven]
  · intro x hx
    simp only [pairLosses, List.mem_map] at hx
    obtain ⟨p, _, rfl⟩ := hx
    rw [tclampMin_eq_max]
    exact le_max_right _ _

theorem loss_pred_loss_elementwise_len_nonneg_witness :
    (([1, 0] : List ℚ).length % 2 = 0 ∧
      ([5, 3] : List ℚ).length = ([1, 0] : List ℚ).length) ∧
    ∃ v, loss_pred_loss [1, 0] [5, 3] 1 "none" = .ok (.vec v) ∧
      v.length = ([1, 0] : List ℚ).length / 2 ∧ ∀ x ∈ v, 0 ≤ x :=
  ⟨⟨by norm_num, by norm_num⟩,
    loss_pred_loss_elementwise_len_nonneg [1, 0] [5, 3] 1
      (by norm_num) (by norm_num)⟩

/-- C8: the ranking loss fails with the invalid-input (odd batch)
error exactly when the input length is odd, for every reduction mode;
for even lengths that error is never produced. -/
theorem loss_pred_loss_invalidInput_iff (input target : List ℚ)
    (margin : ℚ) (reduction : String) :
    loss_pred_loss input target margin reduction = .error .invalidInput ↔
      input.length % 2 = 1 := by
  unfold loss_pred_loss
  split_ifs with h1 h2 h3 <;> simp_all

/-- C10: for every reduction mode other than mean and the elementwise
mode, an even-length batch makes the function fail with the unbound
`loss` variable (`NameError`) — not with the constructed-but-unraised
`NotImplementedError`. -/
theorem loss_pred_loss_unknown_reduction_nameError (input target : List ℚ)
    (margin : ℚ) (reduction : String) (heven : input.length % 2 = 0)
    (hm : reduction ≠ "mean") (hn : reduction ≠ "none") :
    loss_pred_loss input target margin reduction = .error .nameErrorLoss ∧
      loss_pred_loss input target margin reduction ≠ .error .notImplemented := by
  unfold loss_pred_loss
  simp [heven, hm, hn]

theorem loss_pred_loss_unknown_reduction_nameError_witness :
    (([1, 2] : List ℚ).length % 2 = 0 ∧ "sum" ≠ "mean" ∧ "sum" ≠ "none") ∧
    (loss_pred_loss [1, 2] [0, 0] 1 "sum" = .error .nameErrorLoss ∧
      loss_pred_loss [1, 2] [0, 0] 1 "sum" ≠ .error .notImplemented) :=
  ⟨⟨by norm_num, by decide, by decide⟩,
    loss_pred_loss_unknown_reduction_nameError [1, 2] [0, 0] 1 "sum"
      (by norm_num) (by decide) (by decide)⟩

/-!
Class-floor selection (`main.py`, the `__main__` block). The pool,
already sorted by descending uncertainty, is a list of
`(sample index, true label)` pairs. The code takes the globally top
`ADDENDUM - MINIMUM_CNT * CLS_CNT` pairs, then walks the remaining tail
with a per-class counter `cnt_lst` (initialised to all zeros) and
admits every sample whose class counter is still below `MINIMUM_CNT`.
-/

/-- The `cnt_lst` walk over the descending tail: admit a pair whenever
its class has fewer than `m` admissions so far, incrementing that
class's counter. -/
def floorWalk (m : ℕ) (cnt : ℕ → ℕ) : List (ℕ × ℕ) → List (ℕ × ℕ)
  | [] => []
  | p :: rest =>
    if cnt p.2 < m then
      p :: floorWalk m (fun c => if c = p.2 then cnt c + 1 else cnt c) rest
    else
      floorWalk m cnt rest

/-- The full class-floor selection: the top `B - m*C` pairs of the
descending-ordered pool, followed by the floor-walk admissions from the
tail. -/
def selectClassFloor (B m C : ℕ) (ordered : List (ℕ × ℕ)) : List (ℕ × ℕ) :=
  ordered.take (B - m * C) ++ floorWalk m (fun _ => 0) (ordered.drop (B - m * C))

/-- Number of pairs in `l` carrying class label `c`. -/
def countLabel (c : ℕ) (l : List (ℕ × ℕ)) : ℕ := (l.map Prod.snd).count c

theorem floorWalk_countLabel (m : ℕ) (pairs : List (ℕ × ℕ)) :
    ∀ cnt : ℕ → ℕ, ∀ c : ℕ,
      countLabel c (floorWalk m cnt pairs) = min (m - cnt c) (countLabel c pairs) := by
  induction pairs with
  | nil => intro cnt c; simp [floorWalk, countLabel]
  | cons p rest ih =>
    intro cnt c
    by_cases hadmit : cnt p.2 < m
    · by_cases hc : p.2 = c
      · subst hc
        simp only [floorWalk, if_pos hadmit, countLabel, List.map_cons,
          List.count_cons, beq_self_eq_true, if_pos]
        rw [show (floorWalk m (fun x => if x = p.2 then cnt x + 1 else cnt x)
            rest).map Prod.snd = _ from rfl]
        have := ih (fun x => if x = p.2 then cnt x + 1 else cnt x) p.2
        simp only [countLabel] at this
        simp only [this, if_pos rfl]
        simp
        omega
      · simp only [floorWalk, if_pos hadmit, countLabel, List.map_cons,
          List.count_cons]
        have := ih (fun x => if x = p.2 then cnt x + 1 else cnt x) c
        simp only [countLabel] at this
        simp only [this, if_neg hc]
        have hbc : (p.2 == c) = false := by
          simp [hc]
        simp [hbc]
        rw [if_neg (fun h => hc h.symm)]
    · by_cases hc : p.2 = c
      · subst hc
        simp only [floorWalk, if_neg hadmit, countLabel, List.map_cons,
          List.count_cons]
        have := ih cnt p.2
        simp only [countLabel] at this
        simp only [this]
        simp
        omega
      · simp only [floorWalk, if_neg hadmit, countLabel, List.map_cons,
          List.count_cons]
        have := ih cnt c
        simp only [countLabel] at this
        simp only [this]
        have hbc : (p.2 == c) = false := by
          simp [hc]
        simp [hbc]

theorem countLabel_append (c : ℕ) (l₁ l₂ : List (ℕ × ℕ)) :
    countLabel c (l₁ ++ l₂) = countLabel c l₁ + countLabel c l₂ := by
  simp [countLabel]

/-- C2 counterexample: a descending pool whose globally top-4 pairs
cover all 4 classes, yet the floor walk admits 4 extra samples from the
tail (one per class), not the 0 extra the claim predicts, because its
per-class counter starts at zero and ignores the top slice. -/
theorem classFloor_cover_counterexample :
    (∀ c < 4, c ∈ (([(0, 0), (1, 1), (2, 2), (3, 3), (4, 0), (5, 1), (6, 2),
        (7, 3)] : List (ℕ × ℕ)).take (8 - 1 * 4)).map Prod.snd) ∧
    (floorWalk 1 (fun _ => 0) (([(0, 0), (1, 1), (2, 2), (3, 3), (4, 0),
        (5, 1), (6, 2), (7, 3)] : List (ℕ × ℕ)).drop (8 - 1 * 4))).length = 4 ∧
    (selectClassFloor 8 1 4 [(0, 0), (1, 1), (2, 2), (3, 3), (4, 0), (5, 1),
        (6, 2), (7, 3)]).length = 8 := by
  refine ⟨?_, ?_, ?_⟩ <;> decide

/-- C2 (amended): with 4 classes, budget `B = 8` and per-class minimum
`m = 1`, the floor walk ignores which classes the globally top-4 cover;
it admits exactly one tail sample of every class that appears in the
descending tail. In particular it admits 4 extra samples (not 0) when
the tail contains all 4 classes, and when the top-4 cover only 2
classes it still pulls at least one sample of each of the other 2
classes from the tail. -/
theorem classFloor_scenario_amended (ordered : List (ℕ × ℕ))
    (htail : ∀ c < 4, c ∈ (ordered.drop (8 - 1 * 4)).map Prod.snd) :
    ∀ c < 4,
      countLabel c (floorWalk 1 (fun _ => 0) (ordered.drop (8 - 1 * 4))) = 1 ∧
      1 ≤ countLabel c (selectClassFloor 8 1 4 ordered) := by
  intro c hc
  have hmem := htail c hc
  have hcnt : 1 ≤ countLabel c (ordered.drop (8 - 1 * 4)) := by
    simpa [countLabel] using List.count_pos_iff.mpr hmem
  constructor
  · rw [floorWalk_countLabel]
    omega
  · rw [selectClassFloor, countLabel_append, floorWalk_countLabel]
    omega

theorem classFloor_scenario_amended_witness :
    (∀ c < 4, c ∈ (([(0, 0), (1, 0), (2, 1), (3, 1), (4, 2), (5, 3), (6, 0),
        (7, 1), (8, 2), (9, 3)] : List (ℕ × ℕ)).drop (8 - 1 * 4)).map
        Prod.snd) ∧
    (countLabel 2 (floorWalk 1 (fun _ => 0)
        (([(0, 0), (1, 0), (2, 1), (3, 1), (4, 2), (5, 3), (6, 0), (7, 1),
          (8, 2), (9, 3)] : List (ℕ × ℕ)).drop (8 - 1 * 4))) = 1 ∧
      1 ≤ countLabel 2 (selectClassFloor 8 1 4
        [(0, 0), (1, 0), (2, 1), (3, 1), (4, 2), (5, 3), (6, 0), (7, 1),
          (8, 2), (9, 3)])) :=
  ⟨by decide,
    classFloor_scenario_amended
      [(0, 0), (1, 0), (2, 1), (3, 1), (4, 2), (5, 3), (6, 0), (7, 1),
        (8, 2), (9, 3)] (by decide) 2 (by decide)⟩

/-- C3: with the class-floor policy active (and a well-formed quota
`m * C ≤ B`, labels below `C`), every class `c` receives at least
`min(m, number of class-c samples available in the pool)` newly
selected samples: the top slice contributes its class-c members and the
floor walk tops the count up to `m` whenever the tail still has class-c
samples. -/
theorem selectClassFloor_class_min (B m C : ℕ) (ordered : List (ℕ × ℕ))
    (c : ℕ) (hquota : m * C ≤ B) (hlab : ∀ p ∈ ordered, p.2 < C) :
    min m (countLabel c ordered) ≤ countLabel c (selectClassFloor B m C ordered) := by
  have hsplit : countLabel c ordered =
      countLabel c (ordered.take (B - m * C)) +
        countLabel c (ordered.drop (B - m * C)) := by
    rw [← countLabel_append, List.take_append_drop]
  rw [selectClassFloor, countLabel_append, floorWalk_countLabel]
  omega

theorem selectClassFloor_class_min_witness :
    (1 * 4 ≤ 8 ∧ ∀ p ∈ ([(0, 0), (1, 0), (2, 1), (3, 1), (4, 2), (5, 2),
        (6, 3), (7, 3)] : List (ℕ × ℕ)), p.2 < 4) ∧
    min 1 (countLabel 2 [(0, 0), (1, 0), (2, 1), (3, 1), (4, 2), (5, 2),
        (6, 3), (7, 3)]) ≤
      countLabel 2 (selectClassFloor 8 1 4
        [(0, 0), (1, 0), (2, 1), (3, 1), (4, 2), (5, 2), (6, 3), (7, 3)]) :=
  ⟨⟨by decide, by decide⟩,
    selectClassFloor_class_min 8 1 4
      [(0, 0), (1, 0), (2, 1), (3, 1), (4, 2), (5, 2), (6, 3), (7, 3)] 2
      (by decide) (by decide)⟩

/-!
Top-B selection (`bias_test_ll4al.py`, the `__main__` block): the pool
indices are paired with their scores, sorted ascending by score
(`np.argsort`), the last `B` entries are appended to the labeled list,
and everything before them becomes the new unlabeled list.
-/

/-- Ascending comparison on (score, index) pairs used by the argsort. -/
def scoreLE (p q : ℚ × ℕ) : Prop := p.1 ≤ q.1

instance : DecidableRel scoreLE := fun p q => inferInstanceAs (Decidable (p.1 ≤ q.1))

instance : IsTotal (ℚ × ℕ) scoreLE := ⟨fun p q => le_total p.1 q.1⟩

instance : IsTrans (ℚ × ℕ) scoreLE := ⟨fun _ _ _ h1 h2 => le_trans h1 h2⟩

/-- `subset[np.argsort(scores)]` as the (score, index) pool sorted
ascending by score. -/
def sortByScore (pool : List (ℚ × ℕ)) : List (ℚ × ℕ) :=
  List.insertionSort scoreLE pool

/-- The split of the ascending-sorted pool: `.1` is `[:-B]` (kept
unlabeled) and `.2` is `[-B:]` (the `B` highest-scoring pairs). -/
def topBPairs (B : ℕ) (subset : List ℕ) (scores : List ℚ) :
    List (ℚ × ℕ) × List (ℚ × ℕ) :=
  ((sortByScore (scores.zip subset)).take
      ((sortByScore (scores.zip subset)).length - B),
   (sortByScore (scores.zip subset)).drop
      ((sortByScore (scores.zip subset)).length - B))

/-- The Top-B selection step: the labeled list grows by the selected
indices, the unlabeled list becomes the ascending-order remainder. -/
def topBSelect (B : ℕ) (labeled subset : List ℕ) (scores : List ℚ) :
    List ℕ × List ℕ :=
  (labeled ++ (topBPairs B subset scores).2.map Prod.snd,
   (topBPairs B subset scores).1.map Prod.snd)

/-- C4: Top-B selection moves exactly the `B` highest-scoring samples:
for every pool of size `P ≥ B` (positive budget, no duplicate indices,
labeled set disjoint from the pool) the labeled list grows by exactly
`B`, the unlabeled list shrinks to `P - B`, the two stay disjoint, and
every selected pair's score is at least every kept pair's score; and on
the spec's concrete scenario with `B = 3` the selected indices are
`[5, 3, 1]`, i.e. the set `{1, 3, 5}`. -/
theorem topB_selection_spec :
    (∀ (B : ℕ) (labeled subset : List ℕ) (scores : List ℚ),
      0 < B → scores.length = subset.length → B ≤ subset.length →
      subset.Nodup → (∀ x ∈ labeled, x ∉ subset) →
      (topBSelect B labeled subset scores).1.length = labeled.length + B ∧
      (topBSelect B labeled subset scores).2.length = subset.length - B ∧
      (∀ x ∈ (topBSelect B labeled subset scores).1,
        x ∉ (topBSelect B labeled subset scores).2) ∧
      (∀ p ∈ (topBPairs B subset scores).1,
        ∀ q ∈ (topBPairs B subset scores).2, p.1 ≤ q.1)) ∧
    (topBSelect 3 [] [0, 1, 2, 3, 4, 5, 6, 7, 8, 9]
      [1/10, 9/10, 3/10, 8/10, 2/10, 7/10, 1/20, 6/10, 4/10, 5/10]).1 =
        [5, 3, 1] := by
  constructor
  · intro B labeled subset scores hB hlen hBP hnodup hdisj
    have hzip : (scores.zip subset).length = subset.length := by
      rw [List.length_zip, hlen, Nat.min_self]
    have hperm : List.Perm (sortByScore (scores.zip subset)) (scores.zip subset) :=
      List.perm_insertionSort scoreLE _
    have hslen : (sortByScore (scores.zip subset)).length = subset.length := by
      rw [hperm.length_eq, hzip]
    have hmapsnd : (scores.zip subset).map Prod.snd = subset :=
      List.map_snd_zip scores subset hlen.symm.le
    have hpermsnd :
        List.Perm ((sortByScore (scores.zip subset)).map Prod.snd) subset :=
      (hperm.map Prod.snd).trans (List.Perm.of_eq hmapsnd)
    have hnodup' : ((sortByScore (scores.zip subset)).map Prod.snd).Nodup :=
      hpermsnd.nodup_iff.mpr hnodup
    have hsplit : (sortByScore (scores.zip subset)).map Prod.snd =
        ((sortByScore (scores.zip subset)).take
            ((sortByScore (scores.zip subset)).length - B)).map Prod.snd ++
          ((sortByScore (scores.zip subset)).drop
            ((sortByScore (scores.zip subset)).length - B)).map Prod.snd := by
      rw [← List.map_append, List.take_append_drop]
    refine ⟨?_, ?_, ?_, ?_⟩
    · simp only [topBSelect, topBPairs, List.length_append, List.length_map,
        List.length_drop, hslen]
      omega
    · simp only [topBSelect, topBPairs, List.length_map, List.length_take,
        hslen]
      omega
    · intro x hx hx2
      simp only [topBSelect, topBPairs] at hx hx2
      rcases List.mem_append.mp hx with hxl | hxr
      · exact hdisj x hxl (hpermsnd.mem_iff.mp
          (by rw [hsplit]; exact List.mem_append_left _ hx2))
      · rw [hsplit] at hnodup'
        exact (List.nodup_append.mp hnodup').2.2 hx2 hxr
    · intro p hp q hq
      have hs : List.Pairwise scoreLE (sortByScore (scores.zip subset)) :=
        List.sorted_insertionSort scoreLE _
      rw [← List.take_append_drop
        ((sortByScore (scores.zip subset)).length - B)
        (sortByScore (scores.zip subset))] at hs
      simp only [topBPairs] at hp hq
      exact (List.pairwise_append.mp hs).2.2 p hp q hq
  · norm_num [topBSelect, topBPairs, sortByScore, scoreLE]

theorem topB_selection_spec_witness :
    (0 < 3 ∧ ([9, 5, 7] : List ℚ).length = ([10, 20, 30] : List ℕ).length ∧
      3 ≤ ([10, 20, 30] : List ℕ).length ∧ ([10, 20, 30] : List ℕ).Nodup ∧
      ∀ x ∈ ([] : List ℕ), x ∉ ([10, 20, 30] : List ℕ)) ∧
    ((topBSelect 3 [] [10, 20, 30] [9, 5, 7]).1.length =
        ([] : List ℕ).length + 3 ∧
      (topBSelect 3 [] [10, 20, 30] [9, 5, 7]).2.length =
        ([10, 20, 30] : List ℕ).length - 3 ∧
      (∀ x ∈ (topBSelect 3 [] [10, 20, 30] [9, 5, 7]).1,
        x ∉ (topBSelect 3 [] [10, 20, 30] [9, 5, 7]).2) ∧
      (∀ p ∈ (topBPairs 3 [10, 20, 30] [9, 5, 7]).1,
        ∀ q ∈ (topBPairs 3 [10, 20, 30] [9, 5, 7]).2, p.1 ≤ q.1)) :=
  ⟨⟨by decide, by decide, by decide, by decide, by simp⟩,
    topB_selection_spec.1 3 [] [10, 20, 30] [9, 5, 7]
      (by decide) (by decide) (by decide) (by decide) (by simp)⟩

/-!
Cycle-level index bookkeeping (`main.py`, `__main__`): a trial starts
from a shuffled permutation of `range(NUM_TRAIN)` split at `INIT_CNT`;
each cycle appends the selected indices to the labeled set and rebuilds
the unlabeled set as `set(unlabeled_set) - set(labeled_set)`.
-/

/-- The labeled/unlabeled index sets owned by the loop. -/
structure ALState where
  labeled : Finset ℕ
  unlabeled : Finset ℕ

/-- The initial split `indices[:INIT_CNT]` / `indices[INIT_CNT:]` of
the shuffled index list. -/
def initState (initCnt : ℕ) (perm : List ℕ) : ALState :=
  { labeled := (perm.take initCnt).toFinset
    unlabeled := (perm.drop initCnt).toFinset }

/-- One cycle's set update: the class-floor selection over the cycle's
descending-ordered pool joins the labeled set, and the unlabeled set
becomes `set(unlabeled) - set(labeled)`. -/
def cycleStep (B m C : ℕ) (s : ALState) (ordered : List (ℕ × ℕ)) : ALState :=
  { labeled := s.labeled ∪ ((selectClassFloor B m C ordered).map Prod.fst).toFinset
    unlabeled := s.unlabeled \
      (s.labeled ∪ ((selectClassFloor B m C ordered).map Prod.fst).toFinset) }

/-- The state at the `n`-th cycle boundary; `oracle n` is the
descending (index, label) pool the scorer produces in cycle `n`. -/
def runCycles (B m C initCnt : ℕ) (perm : List ℕ)
    (oracle : ℕ → List (ℕ × ℕ)) : ℕ → ALState
  | 0 => initState initCnt perm
  | n + 1 => cycleStep B m C (runCycles B m C initCnt perm oracle n) (oracle n)

theorem floorWalk_mem (m : ℕ) (pairs : List (ℕ × ℕ)) :
    ∀ cnt, ∀ p ∈ floorWalk m cnt pairs, p ∈ pairs := by
  induction pairs with
  | nil =>
    intro cnt p hp
    simp [floorWalk] at hp
  | cons q rest ih =>
    intro cnt p hp
    by_cases h : cnt q.2 < m
    · simp only [floorWalk, if_pos h] at hp
      rcases List.mem_cons.mp hp with rfl | hp'
      · exact List.mem_cons_self _ _
      · exact List.mem_cons_of_mem _ (ih _ p hp')
    · simp only [floorWalk, if_neg h] at hp
      exact List.mem_cons_of_mem _ (ih _ p hp)

theorem selectClassFloor_mem (B m C : ℕ) (ordered : List (ℕ × ℕ)) :
    ∀ p ∈ selectClassFloor B m C ordered, p ∈ ordered := by
  intro p hp
  rcases List.mem_append.mp hp with h | h
  · exact List.mem_of_mem_take h
  · exact List.mem_of_mem_drop (floorWalk_mem m _ _ p h)

/-- C5: at every cycle boundary within a trial the labeled and
unlabeled sets are disjoint and their union is the full training-index
universe fixed at initialization, of constant size `N` — no index is
duplicated or lost — provided each cycle's scored pool is drawn from
the then-current unlabeled set. -/
theorem cycle_boundary_invariant (N initCnt B m C : ℕ) (perm : List ℕ)
    (oracle : ℕ → List (ℕ × ℕ))
    (hperm : perm.toFinset = Finset.range N) (hnodup : perm.Nodup)
    (horacle : ∀ n, ∀ p ∈ oracle n,
      p.1 ∈ (runCycles B m C initCnt perm oracle n).unlabeled) :
    ∀ n,
      Disjoint (runCycles B m C initCnt perm oracle n).labeled
        (runCycles B m C initCnt perm oracle n).unlabeled ∧
      (runCycles B m C initCnt perm oracle n).labeled ∪
        (runCycles B m C initCnt perm oracle n).unlabeled = Finset.range N ∧
      ((runCycles B m C initCnt perm oracle n).labeled ∪
        (runCycles B m C initCnt perm oracle n).unlabeled).card = N := by
  have key : ∀ n,
      Disjoint (runCycles B m C initCnt perm oracle n).labeled
        (runCycles B m C initCnt perm oracle n).unlabeled ∧
      (runCycles B m C initCnt perm oracle n).labeled ∪
        (runCycles B m C initCnt perm oracle n).unlabeled = Finset.range N := by
    intro n
    induction n with
    | zero =>
      simp only [runCycles, initState]
      constructor
      · rw [List.disjoint_toFinset_iff_disjoint]
        exact List.disjoint_take_drop hnodup le_rfl
      · rw [← List.toFinset_append, List.take_append_drop, hperm]
    | succ n ih =>
      have hS : ((selectClassFloor B m C (oracle n)).map Prod.fst).toFinset ⊆
          (runCycles B m C initCnt perm oracle n).unlabeled := by
        intro x hx
        rw [List.mem_toFinset] at hx
        obtain ⟨p, hp, rfl⟩ := List.mem_map.mp hx
        exact horacle n p (selectClassFloor_mem B m C (oracle n) p hp)
      refine ⟨Finset.disjoint_sdiff, ?_⟩
      show ((runCycles B m C initCnt perm oracle n).labeled ∪ _) ∪
        ((runCycles B m C initCnt perm oracle n).unlabeled \ _) = Finset.range N
      rw [Finset.union_sdiff_self_eq_union, Finset.union_assoc,
        Finset.union_comm _ (runCycles B m C initCnt perm oracle n).unlabeled,
        ← Finset.union_assoc, Finset.union_assoc,
        Finset.union_eq_left.mpr hS]
      exact ih.2
  intro n
  refine ⟨(key n).1, (key n).2, ?_⟩
  rw [(key n).2, Finset.card_range]

theorem cycle_boundary_invariant_witness :
    (([2, 0, 3, 1] : List ℕ).toFinset = Finset.range 4 ∧
      ([2, 0, 3, 1] : List ℕ).Nodup) ∧
    (Disjoint (runCycles 8 1 4 2 [2, 0, 3, 1] (fun _ => []) 3).labeled
        (runCycles 8 1 4 2 [2, 0, 3, 1] (fun _ => []) 3).unlabeled ∧
      (runCycles 8 1 4 2 [2, 0, 3, 1] (fun _ => []) 3).labeled ∪
        (runCycles 8 1 4 2 [2, 0, 3, 1] (fun _ => []) 3).unlabeled =
          Finset.range 4 ∧
      ((runCycles 8 1 4 2 [2, 0, 3, 1] (fun _ => []) 3).labeled ∪
        (runCycles 8 1 4 2 [2, 0, 3, 1] (fun _ => []) 3).unlabeled).card = 4) :=
  ⟨⟨by decide, by decide⟩,
    cycle_boundary_invariant 4 2 8 1 4 [2, 0, 3, 1] (fun _ => [])
      (by decide) (by decide)
      (fun n p hp => absurd hp (List.not_mem_nil p)) 3⟩

/-!
Uncertainty scoring (`get_uncertainty` in both files, plus
`get_real_uncertainty`): both models are switched to eval mode, then
with gradients disabled each loader batch is pushed through the frozen
models and the per-sample scores and true labels are concatenated in
loader order. Model parameters are the forward functions themselves;
the only mutable model state the scorer touches is the train/eval mode
flag, so the models are returned explicitly to make that visible.
-/

/-- The backbone classifier: forward maps a batch input to (class
scores, features); `training` is the train/eval mode flag. -/
structure Backbone (ι φ : Type) where
  forward : ι → List ℚ × φ
  training : Bool

/-- The loss-prediction module: forward maps features to per-sample
predicted losses. -/
structure LossModule (φ : Type) where
  forward : φ → List ℚ
  training : Bool

/-- The jointly trained model pair (`models` dict in the source). -/
structure ModelPair (ι φ : Type) where
  backbone : Backbone ι φ
  lossModule : LossModule φ

/-- A loader batch: inputs plus true labels. -/
structure Batch (ι : Type) where
  inputs : ι
  labels : List ℕ

/-- Put both models in eval mode, as the scorer's first two lines do. -/
def evalMode {ι φ : Type} (models : ModelPair ι φ) : ModelPair ι φ :=
  { backbone := { models.backbone with training := false }
    lossModule := { models.lossModule with training := false } }

/-- `get_uncertainty` of `bias_test_ll4al.py`: proxy scores are the
loss module's predictions on the backbone's features. Returns the
(uncertainty, label) arrays and the models as the call leaves them. -/
def get_uncertainty {ι φ : Type} (models : ModelPair ι φ)
    (loader : List (Batch ι)) : (List ℚ × List ℕ) × ModelPair ι φ :=
  (loader.foldl
    (fun acc b =>
      let sf := (evalMode models).backbone.forward b.inputs
      (acc.1 ++ (evalMode models).lossModule.forward sf.2,
        acc.2 ++ b.labels))
    ([], []), evalMode models)

/-- `get_uncertainty` of `main.py` (same shape as
`get_real_uncertainty` of `bias_test_ll4al.py`): oracle scores are the
task criterion applied to the backbone's class scores. -/
def get_real_uncertainty {ι φ : Type} (models : ModelPair ι φ)
    (loader : List (Batch ι)) (criterion : List ℚ → List ℕ → List ℚ) :
    (List ℚ × List ℕ) × ModelPair ι φ :=
  (loader.foldl
    (fun acc b =>
      let sf := (evalMode models).backbone.forward b.inputs
      (acc.1 ++ criterion sf.1 b.labels, acc.2 ++ b.labels))
    ([], []), evalMode models)

/-- C9: scoring a frozen model pair (both mode flags already eval) is
deterministic and side-effect free, in both scorer variants: the call
returns the models exactly as they were, and a second run on the
returned models over the same loader yields identical score and label
arrays. The labeled/unlabeled index sets are not inputs of the scorer,
so it cannot mutate them. -/
theorem get_uncertainty_deterministic {ι φ : Type} (models : ModelPair ι φ)
    (loader : List (Batch ι)) (criterion : List ℚ → List ℕ → List ℚ)
    (hb : models.backbone.training = false)
    (hm : models.lossModule.training = false) :
    (get_uncertainty models loader).2 = models ∧
    (get_uncertainty ((get_uncertainty models loader).2) loader).1 =
      (get_uncertainty models loader).1 ∧
    (get_real_uncertainty models loader criterion).2 = models ∧
    (get_real_uncertainty ((get_real_uncertainty models loader criterion).2)
        loader criterion).1 =
      (get_real_uncertainty models loader criterion).1 := by
  have heval : evalMode models = models := by
    cases models with
    | mk b m =>
      cases b
      cases m
      simp_all [evalMode]
  refine ⟨?_, ?_, ?_, ?_⟩ <;>
    simp [get_uncertainty, get_real_uncertainty, heval]

/-- A tiny concrete frozen model pair instantiating the scorer theorem. -/
def demoModels : ModelPair Unit Unit :=
  { backbone := { forward := fun _ => ([1], ()), training := false }
    lossModule := { forward := fun _ => [2], training := false } }

/-- A one-batch loader for the scorer witness. -/
def demoLoader : List (Batch Unit) := [{ inputs := (), labels := [3] }]

/-- A trivial criterion for the scorer witness. -/
def demoCriterion : List ℚ → List ℕ → List ℚ := fun s _ => s

theorem get_uncertainty_deterministic_witness :
    (demoModels.backbone.training = false ∧
      demoModels.lossModule.training = false) ∧
    ((get_uncertainty demoModels demoLoader).2 = demoModels ∧
      (get_uncertainty ((get_uncertainty demoModels demoLoader).2)
          demoLoader).1 = (get_uncertainty demoModels demoLoader).1 ∧
      (get_real_uncertainty demoModels demoLoader demoCriterion).2 =
        demoModels ∧
      (get_real_uncertainty ((get_real_uncertainty demoModels demoLoader
          demoCriterion).2) demoLoader demoCriterion).1 =
        (get_real_uncertainty demoModels demoLoader demoCriterion).1) :=
  ⟨⟨rfl, rfl⟩,
    get_uncertainty_deterministic demoModels demoLoader demoCriterion rfl rfl⟩
